import Mathlib

/-!
Verification of the interval model and export pipeline of `musiccut`
(`src/main.py`).  Times are integer seconds (Python `int`), weights and
progress ratios are rationals (Python `float` arithmetic on small exact
values), paths and command-line arguments are strings.
-/

namespace MusicCut

/-- `TimeRange` from `main.py`: a pair of integer seconds.  The Python field
`end` is a reserved word in Lean, so it is called `stop` here. -/
structure TimeRange where
  start : Int
  stop : Int
deriving DecidableEq, Repr

/-- `TimeRange.duration`: `max(0, end - start)`. -/
def TimeRange.duration (r : TimeRange) : Int := max 0 (r.stop - r.start)

/-- The ordering produced by `@dataclass(order=True)`: lexicographic on
`(start, end)`.  Python `sorted` sorts by this order. -/
def rangeLe (a b : TimeRange) : Prop :=
  a.start < b.start ∨ (a.start = b.start ∧ a.stop ≤ b.stop)

instance : DecidableRel rangeLe := fun a b => by
  unfold rangeLe; exact instDecidableOr

instance : IsTotal TimeRange rangeLe := ⟨by
  intro a b
  unfold rangeLe
  omega⟩

instance : IsTrans TimeRange rangeLe := ⟨by
  intro a b c hab hbc
  unfold rangeLe at *
  omega⟩

/-- `sorted(self.remove_segments)` in `normalize_segments`. -/
def sortRanges (l : List TimeRange) : List TimeRange :=
  List.insertionSort rangeLe l

/-- `VideoItem` from `main.py` (the fields the export core reads). -/
structure VideoItem where
  path : String
  duration : Int
  width : Option Int
  height : Option Int
  remove_segments : List TimeRange
deriving DecidableEq, Repr

/-- One iteration of the `for segment in sorted(...)` loop of
`VideoItem.normalize_segments`.  The accumulator holds the `cleaned` list in
reverse order, so `cleaned[-1]` is the head. -/
def normStep (D : Int) (acc : List TimeRange) (seg : TimeRange) : List TimeRange :=
  let s := max 0 (min seg.start D)
  let e := max 0 (min seg.stop D)
  if e ≤ s then acc
  else
    match acc with
    | lastR :: rest =>
        if s ≤ lastR.stop then ⟨lastR.start, max lastR.stop e⟩ :: rest
        else ⟨s, e⟩ :: lastR :: rest
    | [] => [⟨s, e⟩]

/-- The loop body of `normalize_segments` for a known positive duration `D`:
sort, clip to `[0, D]`, drop empty ranges, merge touching/overlapping ones. -/
def normalizeList (D : Int) (l : List TimeRange) : List TimeRange :=
  ((sortRanges l).foldl (normStep D) []).reverse

/-- `VideoItem.normalize_segments` as a state transformer (the Python method
mutates `self.remove_segments` in place). -/
def VideoItem.normalize_segments (v : VideoItem) : VideoItem :=
  if v.duration ≤ 0 then { v with remove_segments := [] }
  else { v with remove_segments := normalizeList v.duration v.remove_segments }

/-- The `for segment in self.remove_segments` loop of `keep_segments`,
carrying the `cursor` variable. -/
def keepLoop (D : Int) (cursor : Int) : List TimeRange → List TimeRange
  | [] => if cursor < D then [⟨cursor, D⟩] else []
  | seg :: rest =>
      (if cursor < seg.start then [⟨cursor, seg.start⟩] else []) ++
        keepLoop D (max cursor seg.stop) rest

/-- `VideoItem.keep_segments`: normalizes first, then walks the normalized
delete list with a cursor, emitting the complement intervals. -/
def VideoItem.keep_segments (v : VideoItem) : List TimeRange :=
  let v' := v.normalize_segments
  if v.duration ≤ 0 then [] else keepLoop v.duration 0 v'.remove_segments

/-- Sum of durations of a list of ranges. -/
def sumDur (l : List TimeRange) : Int := (l.map TimeRange.duration).sum

/-- `VideoItem.total_removed`: normalizes, then sums delete durations. -/
def VideoItem.total_removed (v : VideoItem) : Int :=
  sumDur v.normalize_segments.remove_segments

example :
    (VideoItem.mk "a" 100 none none
      [⟨10, 20⟩, ⟨15, 25⟩, ⟨90, 120⟩]).normalize_segments.remove_segments
      = [⟨10, 25⟩, ⟨90, 100⟩] := by decide

example :
    (VideoItem.mk "a" 100 none none
      [⟨10, 20⟩, ⟨15, 25⟩, ⟨90, 120⟩]).keep_segments
      = [⟨0, 10⟩, ⟨25, 90⟩] := by decide

example :
    (VideoItem.mk "a" 100 none none
      [⟨10, 20⟩, ⟨15, 25⟩, ⟨90, 120⟩]).total_removed = 25 := by decide

example :
    (VideoItem.mk "a" 0 none none [⟨10, 20⟩]).keep_segments = [] := by decide

@[simp] lemma TimeRange.mk_start (a b : Int) : (TimeRange.mk a b).start = a := rfl

@[simp] lemma TimeRange.mk_stop (a b : Int) : (TimeRange.mk a b).stop = b := rfl

/-- Strict separation: `a` ends strictly before `b` starts (disjoint and
non-touching). -/
def sep (a b : TimeRange) : Prop := a.stop < b.start

/-- A non-degenerate range inside `[0, D]`. -/
def inBounds (D : Int) (r : TimeRange) : Prop :=
  0 ≤ r.start ∧ r.start < r.stop ∧ r.stop ≤ D

lemma foldl_normStep_inv (D : Int) (hD : 0 < D) (l : List TimeRange) :
    ∀ acc : List TimeRange,
      List.Sorted rangeLe l →
      (∀ a ∈ acc, inBounds D a) →
      List.Pairwise (fun a b => b.stop < a.start) acc →
      (∀ x ∈ l, ∀ h, acc.head? = some h → h.start ≤ max 0 (min x.start D)) →
      (∀ a ∈ l.foldl (normStep D) acc, inBounds D a) ∧
        List.Pairwise (fun a b => b.stop < a.start) (l.foldl (normStep D) acc) := by
  induction l with
  | nil =>
      intro acc _ hb hp _
      exact ⟨by simpa using hb, by simpa using hp⟩
  | cons x xs ih =>
      intro acc hs hb hp hh
      rw [List.sorted_cons] at hs
      obtain ⟨hxle, hxs⟩ := hs
      rw [List.foldl_cons]
      have hmono : ∀ y ∈ xs,
          max 0 (min x.start D) ≤ max 0 (min y.start D) := by
        intro y hy
        have hxy := hxle y hy
        unfold rangeLe at hxy
        omega
      by_cases hes : max 0 (min x.stop D) ≤ max 0 (min x.start D)
      · have hstep : normStep D acc x = acc := by
          simp [normStep, hes]
        rw [hstep]
        refine ih acc hxs hb hp ?_
        intro y hy h hhd
        exact le_trans (hh x (by simp) h hhd) (hmono y hy)
      · push_neg at hes
        have hse : 0 ≤ max 0 (min x.start D) := le_max_left _ _
        have heD : max 0 (min x.stop D) ≤ D := by omega
        match hacc : acc with
        | [] =>
            have hstep : normStep D [] x =
                [⟨max 0 (min x.start D), max 0 (min x.stop D)⟩] := by
              simp [normStep, not_le.mpr hes]
            rw [hstep]
            refine ih _ hxs ?_ ?_ ?_
            · intro a ha
              simp at ha
              subst ha
              exact ⟨hse, hes, heD⟩
            · simp
            · intro y hy h hhd
              simp at hhd
              rw [← hhd]
              exact hmono y hy
        | lastR :: rest =>
            have hlastB := hb lastR (by simp)
            rw [List.pairwise_cons] at hp
            obtain ⟨hpr, hprest⟩ := hp
            by_cases hmerge : max 0 (min x.start D) ≤ lastR.stop
            · have hstep : normStep D (lastR :: rest) x =
                  ⟨lastR.start, max lastR.stop (max 0 (min x.stop D))⟩ :: rest := by
                simp [normStep, not_le.mpr hes, hmerge]
              rw [hstep]
              refine ih _ hxs ?_ ?_ ?_
              · intro a ha
                rcases List.mem_cons.mp ha with h1 | h1
                · subst h1
                  obtain ⟨b1, b2, b3⟩ := hlastB
                  refine ⟨b1, ?_, ?_⟩ <;> simp only [TimeRange.mk_stop,
                    TimeRange.mk_start] <;> omega
                · exact hb a (List.mem_cons_of_mem _ h1)
              · rw [List.pairwise_cons]
                exact ⟨fun b hbm => hpr b hbm, hprest⟩
              · intro y hy h hhd
                simp at hhd
                rw [← hhd]
                have hstartx := hh x (by simp) lastR (by simp)
                exact le_trans hstartx (hmono y hy)
            · push_neg at hmerge
              have hstep : normStep D (lastR :: rest) x =
                  ⟨max 0 (min x.start D), max 0 (min x.stop D)⟩ :: lastR :: rest := by
                simp [normStep, not_le.mpr hes, not_le.mpr hmerge]
              rw [hstep]
              refine ih _ hxs ?_ ?_ ?_
              · intro a ha
                rcases List.mem_cons.mp ha with h1 | h1
                · subst h1
                  exact ⟨hse, hes, heD⟩
                · exact hb a h1
              · rw [List.pairwise_cons]
                refine ⟨?_, by rw [List.pairwise_cons]; exact ⟨hpr, hprest⟩⟩
                intro b hbm
                rcases List.mem_cons.mp hbm with h1 | h1
                · subst h1; exact hmerge
                · have := hpr b h1
                  obtain ⟨b1, b2, b3⟩ := hlastB
                  simp only [TimeRange.mk_start]
                  omega
              · intro y hy h hhd
                simp at hhd
                rw [← hhd]
                exact hmono y hy

lemma normalizeList_props (D : Int) (hD : 0 < D) (l : List TimeRange) :
    (∀ a ∈ normalizeList D l, inBounds D a) ∧
      List.Pairwise sep (normalizeList D l) := by
  have h := foldl_normStep_inv D hD (sortRanges l) []
    (List.sorted_insertionSort rangeLe l) (by simp) (by simp) (by simp)
  unfold normalizeList
  constructor
  · intro a ha
    exact h.1 a (by simpa using ha)
  · rw [List.pairwise_reverse]
    exact h.2

lemma sumDur_nil : sumDur [] = 0 := rfl

lemma sumDur_cons (r : TimeRange) (l : List TimeRange) :
    sumDur (r :: l) = r.duration + sumDur l := by
  simp [sumDur]

lemma sumDur_append (a b : List TimeRange) :
    sumDur (a ++ b) = sumDur a + sumDur b := by
  simp [sumDur]

lemma keepLoop_sum (D : Int) (l : List TimeRange) :
    ∀ cursor : Int, cursor ≤ D →
      (∀ r ∈ l, cursor ≤ r.start ∧ r.start < r.stop ∧ r.stop ≤ D) →
      List.Pairwise sep l →
      sumDur (keepLoop D cursor l) + sumDur l = D - cursor := by
  induction l with
  | nil =>
      intro c hc _ _
      by_cases h : c < D
      · simp [keepLoop, h, sumDur_cons, sumDur_nil, TimeRange.duration]
        omega
      · simp [keepLoop, h, sumDur_nil]
        omega
  | cons r rest ih =>
      intro c hc hb hp
      have hr := hb r (by simp)
      rw [List.pairwise_cons] at hp
      obtain ⟨hsep, hp'⟩ := hp
      have hcr : max c r.stop = r.stop := by omega
      have hrest := ih r.stop (by omega)
        (fun y hy => ⟨by have := hsep y hy; unfold sep at this; omega,
          (hb y (List.mem_cons_of_mem _ hy)).2.1,
          (hb y (List.mem_cons_of_mem _ hy)).2.2⟩) hp'
      rw [keepLoop, hcr, sumDur_append, sumDur_cons]
      by_cases hcs : c < r.start
      · simp only [if_pos hcs, sumDur_cons, sumDur_nil, TimeRange.duration]
        omega
      · simp only [if_neg hcs, sumDur_nil, TimeRange.duration]
        omega

/-- C1: for a video with nonnegative duration, the sum of keep-segment
durations plus `total_removed` equals the duration. -/
theorem claim1_keep_plus_removed_eq_duration (v : VideoItem)
    (h : 0 ≤ v.duration) :
    sumDur v.keep_segments + v.total_removed = v.duration := by
  by_cases hD : v.duration ≤ 0
  · have h0 : v.duration = 0 := le_antisymm hD h
    simp [VideoItem.keep_segments, VideoItem.total_removed,
      VideoItem.normalize_segments, hD, h0, sumDur]
  · push_neg at hD
    obtain ⟨hb, hp⟩ := normalizeList_props v.duration hD v.remove_segments
    have hnorm : v.normalize_segments.remove_segments =
        normalizeList v.duration v.remove_segments := by
      simp [VideoItem.normalize_segments, not_le.mpr hD]
    have hkeep : v.keep_segments =
        keepLoop v.duration 0 (normalizeList v.duration v.remove_segments) := by
      simp [VideoItem.keep_segments, not_le.mpr hD, hnorm]
    have hsum := keepLoop_sum v.duration
      (normalizeList v.duration v.remove_segments) 0 (by omega)
      (fun r hr => ⟨(hb r hr).1, (hb r hr).2.1, (hb r hr).2.2⟩) hp
    rw [hkeep, VideoItem.total_removed, hnorm]
    omega

/-- Witness for C1 at a concrete video. -/
theorem claim1_witness :
    sumDur (VideoItem.mk "a" 100 none none
        [⟨10, 20⟩, ⟨15, 25⟩, ⟨90, 120⟩]).keep_segments +
      (VideoItem.mk "a" 100 none none
        [⟨10, 20⟩, ⟨15, 25⟩, ⟨90, 120⟩]).total_removed = 100 :=
  claim1_keep_plus_removed_eq_duration
    (VideoItem.mk "a" 100 none none [⟨10, 20⟩, ⟨15, 25⟩, ⟨90, 120⟩])
    (by decide)

/-- C2: after `normalize_segments`, the delete list is sorted by start,
pairwise disjoint and non-touching, every range satisfies
`0 ≤ start < stop ≤ duration`, and a nonpositive duration forces emptiness. -/
theorem claim2_normalize_invariant (v : VideoItem) :
    List.Pairwise (fun a b => a.start < b.start ∧ a.stop < b.start)
        v.normalize_segments.remove_segments ∧
      (∀ r ∈ v.normalize_segments.remove_segments,
        0 ≤ r.start ∧ r.start < r.stop ∧ r.stop ≤ v.duration) ∧
      (v.duration ≤ 0 → v.normalize_segments.remove_segments = []) := by
  by_cases hD : v.duration ≤ 0
  · simp [VideoItem.normalize_segments, hD]
  · push_neg at hD
    obtain ⟨hb, hp⟩ := normalizeList_props v.duration hD v.remove_segments
    have hnorm : v.normalize_segments.remove_segments =
        normalizeList v.duration v.remove_segments := by
      simp [VideoItem.normalize_segments, not_le.mpr hD]
    rw [hnorm]
    refine ⟨?_, fun r hr => ⟨(hb r hr).1, (hb r hr).2.1, (hb r hr).2.2⟩,
      fun hc => absurd hc (by omega)⟩
    refine hp.imp_of_mem ?_
    intro a b ha _ hab
    unfold sep at hab
    have := (hb a ha).2.1
    exact ⟨by omega, hab⟩

lemma normalizeList_sorted (D : Int) (hD : 0 < D) (l : List TimeRange) :
    List.Sorted rangeLe (normalizeList D l) := by
  obtain ⟨hb, hp⟩ := normalizeList_props D hD l
  refine hp.imp_of_mem ?_
  intro a b ha _ hab
  unfold sep at hab
  have := (hb a ha).2.1
  unfold rangeLe
  omega

lemma foldl_normStep_of_normalized (D : Int) (hD : 0 < D) (l : List TimeRange) :
    ∀ acc : List TimeRange,
      (∀ a ∈ l, inBounds D a) →
      List.Pairwise sep l →
      (∀ x ∈ l, ∀ h, acc.head? = some h → h.stop < x.start) →
      l.foldl (normStep D) acc = l.reverse ++ acc := by
  induction l with
  | nil => intro acc _ _ _; simp
  | cons x xs ih =>
      intro acc hb hp hh
      have hx := hb x (by simp)
      obtain ⟨hx1, hx2, hx3⟩ := hx
      rw [List.pairwise_cons] at hp
      obtain ⟨hsep, hp'⟩ := hp
      have hsx : max 0 (min x.start D) = x.start := by omega
      have hex : max 0 (min x.stop D) = x.stop := by omega
      have hstep : normStep D acc x = x :: acc := by
        match acc with
        | [] =>
            simp only [normStep, hsx, hex, if_neg (by omega : ¬ x.stop ≤ x.start)]
        | lastR :: rest =>
            have hlt : lastR.stop < x.start := hh x (by simp) lastR rfl
            simp only [normStep, hsx, hex, if_neg (by omega : ¬ x.stop ≤ x.start),
              if_neg (by omega : ¬ x.start ≤ lastR.stop)]
      rw [List.foldl_cons, hstep]
      rw [ih (x :: acc) (fun a ha => hb a (List.mem_cons_of_mem _ ha)) hp'
        (fun y hy h hhd => by
          simp at hhd
          rw [← hhd]
          exact hsep y hy)]
      simp

lemma normalizeList_idem (D : Int) (hD : 0 < D) (l : List TimeRange) :
    normalizeList D (normalizeList D l) = normalizeList D l := by
  obtain ⟨hb, hp⟩ := normalizeList_props D hD l
  have hsorted := normalizeList_sorted D hD l
  conv_lhs => rw [normalizeList]
  rw [show sortRanges (normalizeList D l) = normalizeList D l from
    List.Sorted.insertionSort_eq hsorted]
  rw [foldl_normStep_of_normalized D hD _ [] hb hp (by simp)]
  simp

/-- C8: `normalize_segments` is idempotent, and a second `keep_segments`
call on the state left behind by the first returns the same output. -/
theorem claim8_normalize_idempotent (v : VideoItem) :
    v.normalize_segments.normalize_segments = v.normalize_segments ∧
      v.normalize_segments.keep_segments = v.keep_segments := by
  have hdur : v.normalize_segments.duration = v.duration := by
    unfold VideoItem.normalize_segments
    by_cases hD : v.duration ≤ 0 <;> simp [hD]
  have hidem : v.normalize_segments.normalize_segments = v.normalize_segments := by
    by_cases hD : v.duration ≤ 0
    · simp [VideoItem.normalize_segments, hD]
    · push_neg at hD
      simp [VideoItem.normalize_segments, not_le.mpr hD,
        normalizeList_idem v.duration hD]
  refine ⟨hidem, ?_⟩
  unfold VideoItem.keep_segments
  rw [hidem, hdur]

/-!
## Export plan builder (`MainWindow._start_export`)

The builder walks the project's videos in order, emits one ffmpeg
extraction job per keep segment (stream copy for a single-video project,
transcode otherwise), then one concat job, and hands the runner a cleanup
manifest `temp_files + [list_file]`.
-/

/-- Python `f"{n:02d}"` for nonnegative `n`. -/
def pad2 (n : Nat) : String := if n < 10 then "0" ++ toString n else toString n

/-- Python `f"{n:03d}"` for nonnegative `n`. -/
def pad3 (n : Nat) : String :=
  if n < 10 then "00" ++ toString n
  else if n < 100 then "0" ++ toString n
  else toString n

/-- `f"clip_{v_idx:02d}_{k_idx:03d}.mp4"`. -/
def clipName (vIdx kIdx : Nat) : String :=
  "clip_" ++ pad2 vIdx ++ "_" ++ pad3 kIdx ++ ".mp4"

/-- The `vf_chain` string built in `_start_export`. -/
def vfChain (w h fps : Int) : String :=
  "scale=" ++ toString w ++ ":" ++ toString h ++
    ":force_original_aspect_ratio=decrease,pad=" ++ toString w ++ ":" ++
    toString h ++ ":(ow-iw)/2:(oh-ih)/2,setsar=1,format=yuv420p,fps=" ++
    toString fps

/-- Stream-copy extraction argument list (single-video branch). -/
def copyArgs (inp : String) (s e : Int) (out : String) : List String :=
  ["ffmpeg", "-y", "-hide_banner", "-loglevel", "error", "-ss", toString s,
    "-to", toString e, "-i", inp, "-c", "copy", out]

/-- Transcode extraction argument list (multi-video branch). -/
def transcodeArgs (w h fps : Int) (inp : String) (s e : Int) (out : String) :
    List String :=
  ["ffmpeg", "-y", "-hide_banner", "-loglevel", "error", "-ss", toString s,
    "-to", toString e, "-i", inp, "-vf", vfChain w h fps, "-c:v", "libx264",
    "-preset", "veryfast", "-crf", "20", "-c:a", "aac", "-ar", "48000",
    "-ac", "2", "-b:a", "192k", out]

/-- Concat argument list. -/
def concatArgs (listFile outPath : String) : List String :=
  ["ffmpeg", "-y", "-hide_banner", "-loglevel", "error", "-f", "concat",
    "-safe", "0", "-i", listFile, "-c", "copy", outPath]

/-- One update of the `if v.width and v.width > target_w: target_w = v.width`
loop (Python truthiness rules out `0`). -/
def maxStep (get : VideoItem → Option Int) (acc : Int) (v : VideoItem) : Int :=
  match get v with
  | some w => if w ≠ 0 ∧ acc < w then w else acc
  | none => acc

/-- The `target_w` / `target_h` accumulation loop of `_start_export`, split
per dimension (the source updates both inside one `for v in videos` loop,
which is the same as two independent folds). -/
def rawMax (get : VideoItem → Option Int) (videos : List VideoItem) : Int :=
  videos.foldl (maxStep get) 0

/-- `if target_w <= 0 or target_h <= 0: target_w, target_h = 1280, 720`. -/
def targetGeom (videos : List VideoItem) : Int × Int :=
  let tw := rawMax VideoItem.width videos
  let th := rawMax VideoItem.height videos
  if tw ≤ 0 ∨ th ≤ 0 then (1280, 720) else (tw, th)

/-- The per-segment part of the plan: for each `(v_idx, video)` and each
`(k_idx, keep)` the emitted `(args, weight)` pair together with the
temporary output path that is appended to `temp_files`. -/
def segTriples (tempDir : String) (transcode : Bool) (tw th : Int)
    (videos : List VideoItem) : List ((List String × ℚ) × String) :=
  videos.enum.flatMap (fun vi =>
    vi.2.keep_segments.enum.map (fun ki =>
      let out := tempDir ++ "/" ++ clipName vi.1 ki.1
      ((if transcode then transcodeArgs tw th 30 vi.2.path ki.2.start ki.2.stop out
        else copyArgs vi.2.path ki.2.start ki.2.stop out,
        ((ki.2.duration : Int) : ℚ)), out)))

/-- The plan handed to `_run_multistep`: ordered `(args, weight)` steps and
the cleanup manifest. -/
structure Plan where
  steps : List (List String × ℚ)
  manifest : List String
deriving DecidableEq, Repr

/-- `_start_export`'s plan construction (the part downstream of the GUI
dialogs): per-segment jobs in project order, one final concat job of weight
`1.0`, and the manifest `temp_files + [list_file]`. -/
def buildPlan (tempDir outputPath : String) (videos : List VideoItem) : Plan :=
  let transcode := decide (1 < videos.length)
  let tg := targetGeom videos
  let listFile := tempDir ++ "/concat_list.txt"
  let segs := segTriples tempDir transcode tg.1 tg.2 videos
  { steps := segs.map Prod.fst ++ [(concatArgs listFile outputPath, 1)],
    manifest := segs.map Prod.snd ++ [listFile] }

/-- `true` iff the adjacent pair `x, y` occurs in the argument list. -/
def hasPairB (x y : String) : List String → Bool
  | a :: b :: rest => (a == x && b == y) || hasPairB x y (b :: rest)
  | _ => false

/-- C3 counterexample: for a single video with keep-segments
`[(0,10),(20,30)]`, the cleanup manifest handed to the runner is
`temp_files + [list_file]`, which has 3 entries, not 2. -/
theorem claim3_counterexample :
    (VideoItem.mk "v.mp4" 30 none none [⟨10, 20⟩]).keep_segments
        = [⟨0, 10⟩, ⟨20, 30⟩] ∧
      (buildPlan "T" "out.mp4"
        [VideoItem.mk "v.mp4" 30 none none [⟨10, 20⟩]]).manifest.length ≠ 2 := by
  decide

/-- C3 amended: the plan has exactly 2 stream-copy extraction jobs (no
`-vf` filter, `-c copy`, not concat) followed by exactly 1 concat job,
weights `[10, 10, 1.0]`, and the manifest has exactly 3 entries (the two
segment outputs plus the concat list file). -/
theorem claim3_single_video_plan :
    ((buildPlan "T" "out.mp4"
          [VideoItem.mk "v.mp4" 30 none none [⟨10, 20⟩]]).steps.map
        (fun s => (hasPairB "-c" "copy" s.1, hasPairB "-f" "concat" s.1,
          s.1.contains "-vf", s.2))
        = [(true, false, false, 10), (true, false, false, 10),
            (true, true, false, 1)]) ∧
      (buildPlan "T" "out.mp4"
        [VideoItem.mk "v.mp4" 30 none none [⟨10, 20⟩]]).manifest
        = ["T/clip_00_000.mp4", "T/clip_00_001.mp4", "T/concat_list.txt"] := by
  decide

lemma maxStep_ge (get : VideoItem → Option Int) (acc : Int) (v : VideoItem) :
    acc ≤ maxStep get acc v := by
  unfold maxStep
  match get v with
  | some w => dsimp only; split <;> omega
  | none => exact le_refl _

lemma foldl_maxStep_ge (get : VideoItem → Option Int) (l : List VideoItem) :
    ∀ a : Int, a ≤ l.foldl (maxStep get) a := by
  induction l with
  | nil => intro a; simp
  | cons u us ih =>
      intro a
      rw [List.foldl_cons]
      exact le_trans (maxStep_ge get a u) (ih _)

lemma foldl_maxStep_ub (get : VideoItem → Option Int) (l : List VideoItem) :
    ∀ a : Int, 0 ≤ a → ∀ v ∈ l, ∀ w, get v = some w →
      w ≤ l.foldl (maxStep get) a := by
  induction l with
  | nil => intro a _ v hv; simp at hv
  | cons u us ih =>
      intro a ha v hv w hw
      rw [List.foldl_cons]
      rcases List.mem_cons.mp hv with h | h
      · subst h
        have hge := foldl_maxStep_ge get us (maxStep get a v)
        have hms : maxStep get a v = if w ≠ 0 ∧ a < w then w else a := by
          unfold maxStep; rw [hw]
        rw [hms] at hge ⊢
        by_cases hcond : w ≠ 0 ∧ a < w
        · rw [if_pos hcond] at hge ⊢; exact hge
        · rw [if_neg hcond] at hge ⊢; omega
      · exact ih (maxStep get a u) (le_trans ha (maxStep_ge get a u)) v h w hw

lemma foldl_maxStep_mem (get : VideoItem → Option Int) (l : List VideoItem) :
    ∀ a : Int, a < l.foldl (maxStep get) a →
      ∃ v ∈ l, get v = some (l.foldl (maxStep get) a) := by
  induction l with
  | nil => intro a ha; simp at ha
  | cons u us ih =>
      intro a hlt
      rw [List.foldl_cons] at hlt ⊢
      by_cases h : maxStep get a u < us.foldl (maxStep get) (maxStep get a u)
      · obtain ⟨v, hv, hgv⟩ := ih (maxStep get a u) h
        exact ⟨v, List.mem_cons_of_mem _ hv, hgv⟩
      · have heq : us.foldl (maxStep get) (maxStep get a u) = maxStep get a u :=
          le_antisymm (not_lt.mp h) (foldl_maxStep_ge get us _)
        rw [heq] at hlt ⊢
        refine ⟨u, by simp, ?_⟩
        match hg : get u with
        | none =>
            have hms : maxStep get a u = a := by unfold maxStep; rw [hg]
            rw [hms] at hlt
            exact absurd hlt (lt_irrefl a)
        | some w =>
            have hms : maxStep get a u = if w ≠ 0 ∧ a < w then w else a := by
              unfold maxStep; rw [hg]
            rw [hms] at hlt ⊢
            by_cases hcond : w ≠ 0 ∧ a < w
            · rw [if_pos hcond]
            · rw [if_neg hcond] at hlt; exact absurd hlt (lt_irrefl a)

lemma foldl_maxStep_none (get : VideoItem → Option Int) (l : List VideoItem)
    (h : ∀ v ∈ l, get v = none) : ∀ a : Int, l.foldl (maxStep get) a = a := by
  induction l with
  | nil => intro a; simp
  | cons u us ih =>
      intro a
      rw [List.foldl_cons]
      have hu : maxStep get a u = a := by unfold maxStep; rw [h u (by simp)]
      rw [hu]
      exact ih (fun v hv => h v (List.mem_cons_of_mem _ hv)) a

lemma steps_dropLast (tempDir outputPath : String) (videos : List VideoItem) :
    (buildPlan tempDir outputPath videos).steps.dropLast =
      (segTriples tempDir (decide (1 < videos.length))
        (targetGeom videos).1 (targetGeom videos).2 videos).map Prod.fst := by
  unfold buildPlan
  simp

/-- C4: in a multi-video project every per-segment job carries the same
`-vf` chain (target geometry plus `fps=30`) and re-encodes with libx264;
the target geometry is the per-dimension maximum of reported sizes when
positive sizes are reported, and 1280x720 when no video reports geometry. -/
theorem claim4_multi_video_transcode (tempDir outputPath : String)
    (videos : List VideoItem) (hlen : 1 < videos.length) :
    (∀ s ∈ (buildPlan tempDir outputPath videos).steps.dropLast,
        hasPairB "-vf"
            (vfChain (targetGeom videos).1 (targetGeom videos).2 30) s.1 = true ∧
          hasPairB "-c:v" "libx264" s.1 = true) ∧
      ((∀ v ∈ videos, v.width = none ∧ v.height = none) →
        targetGeom videos = (1280, 720)) ∧
      ((∃ v ∈ videos, ∃ w, v.width = some w ∧ 0 < w) →
        (∃ v ∈ videos, ∃ h, v.height = some h ∧ 0 < h) →
        (∃ v ∈ videos, v.width = some (targetGeom videos).1) ∧
          (∀ v ∈ videos, ∀ w, v.width = some w → w ≤ (targetGeom videos).1) ∧
          (∃ v ∈ videos, v.height = some (targetGeom videos).2) ∧
          (∀ v ∈ videos, ∀ h, v.height = some h → h ≤ (targetGeom videos).2)) := by
  refine ⟨?_, ?_, ?_⟩
  · intro s hs
    have htr : decide (1 < videos.length) = true := decide_eq_true hlen
    rw [steps_dropLast, htr] at hs
    obtain ⟨t, ht, rfl⟩ := List.mem_map.mp hs
    unfold segTriples at ht
    obtain ⟨vi, _, ht2⟩ := List.mem_flatMap.mp ht
    obtain ⟨ki, _, rfl⟩ := List.mem_map.mp ht2
    constructor <;> simp [transcodeArgs, hasPairB]
  · intro h
    have hw := foldl_maxStep_none VideoItem.width videos (fun v hv => (h v hv).1) 0
    have hh := foldl_maxStep_none VideoItem.height videos (fun v hv => (h v hv).2) 0
    unfold targetGeom rawMax
    rw [hw, hh]
    simp
  · intro hw hh
    obtain ⟨vw, hvw, w, hwget, hwpos⟩ := hw
    obtain ⟨vh, hvh, h, hhget, hhpos⟩ := hh
    have hwub := foldl_maxStep_ub VideoItem.width videos 0 (le_refl 0)
    have hhub := foldl_maxStep_ub VideoItem.height videos 0 (le_refl 0)
    have hwpos' : 0 < rawMax VideoItem.width videos :=
      lt_of_lt_of_le hwpos (hwub vw hvw w hwget)
    have hhpos' : 0 < rawMax VideoItem.height videos :=
      lt_of_lt_of_le hhpos (hhub vh hvh h hhget)
    have hgeom : targetGeom videos =
        (rawMax VideoItem.width videos, rawMax VideoItem.height videos) := by
      unfold targetGeom
      rw [if_neg (by push_neg; omega)]
    rw [hgeom]
    refine ⟨?_, fun v hv w' hw' => hwub v hv w' hw', ?_,
      fun v hv h' hh' => hhub v hv h' hh'⟩
    · exact foldl_maxStep_mem VideoItem.width videos 0 hwpos'
    · exact foldl_maxStep_mem VideoItem.height videos 0 hhpos'

/-- Witness for C4 at a concrete two-video project. -/
theorem claim4_witness :
    (∀ s ∈ (buildPlan "T" "o.mp4"
        [VideoItem.mk "a.mp4" 30 (some 640) (some 480) [],
          VideoItem.mk "b.mp4" 20 (some 1920) (some 1080) []]).steps.dropLast,
        hasPairB "-vf"
            (vfChain (targetGeom
              [VideoItem.mk "a.mp4" 30 (some 640) (some 480) [],
                VideoItem.mk "b.mp4" 20 (some 1920) (some 1080) []]).1
              (targetGeom
              [VideoItem.mk "a.mp4" 30 (some 640) (some 480) [],
                VideoItem.mk "b.mp4" 20 (some 1920) (some 1080) []]).2 30)
          s.1 = true ∧
          hasPairB "-c:v" "libx264" s.1 = true) ∧
      ((∀ v ∈ [VideoItem.mk "a.mp4" 30 (some 640) (some 480) [],
          VideoItem.mk "b.mp4" 20 (some 1920) (some 1080) []],
          v.width = none ∧ v.height = none) →
        targetGeom [VideoItem.mk "a.mp4" 30 (some 640) (some 480) [],
          VideoItem.mk "b.mp4" 20 (some 1920) (some 1080) []] = (1280, 720)) ∧
      ((∃ v ∈ [VideoItem.mk "a.mp4" 30 (some 640) (some 480) [],
          VideoItem.mk "b.mp4" 20 (some 1920) (some 1080) []],
          ∃ w, v.width = some w ∧ 0 < w) →
        (∃ v ∈ [VideoItem.mk "a.mp4" 30 (some 640) (some 480) [],
          VideoItem.mk "b.mp4" 20 (some 1920) (some 1080) []],
          ∃ h, v.height = some h ∧ 0 < h) →
        (∃ v ∈ [VideoItem.mk "a.mp4" 30 (some 640) (some 480) [],
          VideoItem.mk "b.mp4" 20 (some 1920) (some 1080) []],
          v.width = some (targetGeom [VideoItem.mk "a.mp4" 30 (some 640) (some 480) [],
            VideoItem.mk "b.mp4" 20 (some 1920) (some 1080) []]).1) ∧
          (∀ v ∈ [VideoItem.mk "a.mp4" 30 (some 640) (some 480) [],
            VideoItem.mk "b.mp4" 20 (some 1920) (some 1080) []],
            ∀ w, v.width = some w →
              w ≤ (targetGeom [VideoItem.mk "a.mp4" 30 (some 640) (some 480) [],
                VideoItem.mk "b.mp4" 20 (some 1920) (some 1080) []]).1) ∧
          (∃ v ∈ [VideoItem.mk "a.mp4" 30 (some 640) (some 480) [],
            VideoItem.mk "b.mp4" 20 (some 1920) (some 1080) []],
            v.height = some (targetGeom [VideoItem.mk "a.mp4" 30 (some 640) (some 480) [],
              VideoItem.mk "b.mp4" 20 (some 1920) (some 1080) []]).2) ∧
          (∀ v ∈ [VideoItem.mk "a.mp4" 30 (some 640) (some 480) [],
            VideoItem.mk "b.mp4" 20 (some 1920) (some 1080) []],
            ∀ h, v.height = some h →
              h ≤ (targetGeom [VideoItem.mk "a.mp4" 30 (some 640) (some 480) [],
                VideoItem.mk "b.mp4" 20 (some 1920) (some 1080) []]).2)) :=
  claim4_multi_video_transcode "T" "o.mp4"
    [VideoItem.mk "a.mp4" 30 (some 640) (some 480) [],
      VideoItem.mk "b.mp4" 20 (some 1920) (some 1080) []] (by decide)

/-!
## Job runners (`FFmpegWorker`, `MultiStepFFmpegWorker`)

Both workers are modelled as functions from their inputs plus an execution
oracle (output lines / exit codes) to the list of emitted events.  The
asynchronous `request_cancel` is modelled by `cAt : Option Nat`, the index
of the first read of the cancel flag that observes it: the flag reads of a
run are numbered `0, 1, 2, ...` in execution order and read `k` returns
`true` iff `cAt = some c` with `c ≤ k` (the flag is monotone).  A `cAt`
equal to the number of reads therefore means the request landed after the
final read but before the terminal emission.
-/

/-- Events a worker emits (Qt signals), plus the observable side effects
`launch` (a `Popen` call), `terminate` (killing the child) and `cleanup`
(the `_do_cleanup` deletion pass over the manifest). -/
inductive MEvent where
  | msg (s : String)
  | launch (args : List String)
  | progress (q : ℚ)
  | terminate
  | cleanup (files : List String)
  | finished (ok : Bool) (text : String)
deriving DecidableEq, Repr

/-- Whether the cancel flag reads `true` at read index `k`. -/
def cancelSeen (cAt : Option Nat) (k : Nat) : Bool :=
  match cAt with
  | some c => decide (c ≤ k)
  | none => false

def progressValues (tr : List MEvent) : List ℚ :=
  tr.filterMap (fun e => match e with | .progress q => some q | _ => none)

def finishedEvents (tr : List MEvent) : List (Bool × String) :=
  tr.filterMap (fun e => match e with | .finished b s => some (b, s) | _ => none)

def launches (tr : List MEvent) : List (List String) :=
  tr.filterMap (fun e => match e with | .launch a => some a | _ => none)

/-- Greedy `\d+`: leading digits and the remainder (`none` if no digit). -/
def readDigits (cs : List Char) : Option (List Char × List Char) :=
  let ds := cs.takeWhile Char.isDigit
  if ds.isEmpty then none else some (ds, cs.drop ds.length)

/-- Numeric value of a digit string. -/
def digitsVal (ds : List Char) : Nat :=
  ds.foldl (fun a c => 10 * a + (c.toNat - 48)) 0

/-- The pattern `time=(\d+):(\d+):(\d+\.\d+)` anchored at the head of `cs`
(greedy `\d+` is `takeWhile isDigit`, since the character after each group
is never a digit).  Returns hours, minutes and the decimal seconds. -/
def matchTime (cs : List Char) : Option (Nat × Nat × ℚ) :=
  if cs.take 5 = "time=".toList then
    match readDigits (cs.drop 5) with
    | some (hd, ':' :: r2) =>
        match readDigits r2 with
        | some (md, ':' :: r4) =>
            match readDigits r4 with
            | some (sd, '.' :: r6) =>
                match readDigits r6 with
                | some (fd, _) =>
                    some (digitsVal hd, digitsVal md,
                      (digitsVal sd : ℚ) +
                        (digitsVal fd : ℚ) / (10 : ℚ) ^ fd.length)
                | none => none
            | _ => none
        | _ => none
    | _ => none
  else none

/-- `re.search`: the leftmost position where the pattern matches. -/
def searchTime : List Char → Option (Nat × Nat × ℚ)
  | [] => none
  | c :: rest =>
      match matchTime (c :: rest) with
      | some t => some t
      | none => searchTime rest

/-- `FFmpegWorker._parse_progress`: on a match, the ratio
`current / max(1.0, duration)` clamped to `[0, 1]`. -/
def parseProgress (line : String) (durationSeconds : Int) : Option ℚ :=
  match searchTime line.toList with
  | none => none
  | some (h, m, s) =>
      let current : ℚ := (h : ℚ) * 3600 + (m : ℚ) * 60 + s
      some (min 1 (max 0 (current / max 1 (durationSeconds : ℚ))))

/-- `FFmpegTask` from `main.py`. -/
structure FFmpegTask where
  input_path : String
  output_path : String
  start_seconds : Int
  end_seconds : Int
  total_duration : Int
deriving DecidableEq, Repr

/-- The stream-copy command of `FFmpegWorker._execute`. -/
def ffmpegCmdArgs (ffmpegPath : String) (task : FFmpegTask) : List String :=
  [ffmpegPath, "-y", "-hide_banner", "-loglevel", "info", "-ss",
    toString task.start_seconds, "-to", toString task.end_seconds, "-i",
    task.input_path, "-c", "copy", task.output_path]

/-- The line loop and epilogue of `FFmpegWorker._execute`.  One cancel-flag
read per output line (read index `k`), then one post-`wait()` read. -/
def ffLoop (dur : Int) (code : Int) (outPath : String) (cAt : Option Nat) :
    Nat → List String → List MEvent
  | k, [] =>
      if cancelSeen cAt k then [.finished false "任务已取消"]
      else if code = 0 then
        [.progress 1, .finished true ("导出完成: " ++ outPath)]
      else
        [.finished false ("FFmpeg 退出失败 (code " ++ toString code ++ ")")]
  | k, line :: rest =>
      if cancelSeen cAt k then [.finished false "任务已取消"]
      else
        .msg line.trim ::
          ((match parseProgress line.trim dur with
            | some r => [MEvent.progress r]
            | none => []) ++ ffLoop dur code outPath cAt (k + 1) rest)

/-- `FFmpegWorker._execute`: command message, process launch, line loop. -/
def ffRun (ffmpegPath : String) (task : FFmpegTask) (lines : List String)
    (code : Int) (cAt : Option Nat) : List MEvent :=
  let duration := max 1 (task.end_seconds - task.start_seconds)
  .msg ("FFmpeg 命令: " ++
      String.intercalate " " (ffmpegCmdArgs ffmpegPath task)) ::
    .launch (ffmpegCmdArgs ffmpegPath task) ::
    ffLoop duration code task.output_path cAt 0 lines

/-- One step of `MultiStepFFmpegWorker` together with its execution oracle:
`exit` is the exit code from `wait()` (`none`: `Popen` raised
`FileNotFoundError`), `reads` the number of while-loop iterations, each of
which reads the cancel flag once (at least 1 in a real run). -/
structure MStep where
  args : List String
  weight : ℚ
  exit : Option Int
  reads : Nat
deriving DecidableEq, Repr

/-- `sum(weight for _, weight in self._steps) or 1.0`. -/
def totalWeight (steps : List MStep) : ℚ :=
  let s := (steps.map MStep.weight).sum
  if s = 0 then 1 else s

/-- The failure message `f"步骤 {idx} 执行失败 (code {code})"`. -/
def failMsg (idx : Nat) (code : Int) : String :=
  "步骤 " ++ toString idx ++ " 执行失败 (code " ++ toString code ++ ")"

/-- The `for idx, (args, weight) in enumerate(self._steps, start=1)` loop of
`MultiStepFFmpegWorker.run`.  Read `k` is the loop-top check; reads
`k+1 ... k+reads` happen inside the line-draining while loop; there is no
read between `wait()` and the per-step outcome handling. -/
def msLoop (files : List String) (total : ℚ) (cAt : Option Nat) :
    ℚ → Nat → Nat → List MStep → List MEvent
  | _, _, _, [] => [.cleanup files, .finished true "导出完成"]
  | acc, idx, k, st :: rest =>
      if cancelSeen cAt k then [.finished false "任务已取消"]
      else
        .msg ("执行: " ++ String.intercalate " " st.args) ::
          match st.exit with
          | none => [.cleanup files, .finished false "缺少可执行文件"]
          | some code =>
              .launch st.args ::
                (if cancelSeen cAt (k + st.reads) then
                  [.terminate, .finished false "任务已取消"]
                else if code ≠ 0 then
                  [.cleanup files, .finished false (failMsg idx code)]
                else
                  .progress (min 1 ((acc + st.weight) / total)) ::
                    msLoop files total cAt (acc + st.weight) (idx + 1)
                      (k + st.reads + 1) rest)

/-- `MultiStepFFmpegWorker.run`. -/
def msRun (steps : List MStep) (files : List String) (cAt : Option Nat) :
    List MEvent :=
  msLoop files (totalWeight steps) cAt 0 1 0 steps

/-- C5 (documents the code bug): a single-step multi-step run whose process
exits 0 while the cancel request lands after the step's final cancel-flag
read (read indices 0 and 1; `cAt = some 2`) emits `finished(true, ...)` —
the worker never re-checks the flag after `wait()`.  If the request is
observed at the final read (`cAt = some 1`) it is honoured, so `some 2` is
exactly the exit-0/cancel race window the claim describes. -/
theorem claim5_multistep_cancel_race :
    finishedEvents
        (msRun [MStep.mk ["ffmpeg", "x"] 1 (some 0) 1] ["f1"] (some 2))
        = [(true, "导出完成")] ∧
      finishedEvents
        (msRun [MStep.mk ["ffmpeg", "x"] 1 (some 0) 1] ["f1"] (some 1))
        = [(false, "任务已取消")] := by
  decide

/-- C6 counterexample: a cancellation observed before the first job, with a
non-empty manifest, terminates without any cleanup event. -/
theorem claim6_counterexample :
    msRun [MStep.mk ["ffmpeg", "x"] 1 (some 0) 1] ["tmp1"] (some 0)
        = [MEvent.finished false "任务已取消"] ∧
      MEvent.cleanup ["tmp1"] ∉
        msRun [MStep.mk ["ffmpeg", "x"] 1 (some 0) 1] ["tmp1"] (some 0) := by
  decide

lemma msLoop_exit_shape (files : List String) (total : ℚ) (cAt : Option Nat) :
    ∀ (steps : List MStep) (acc : ℚ) (idx k : Nat),
      (∃ t b m, msLoop files total cAt acc idx k steps =
          t ++ [MEvent.cleanup files, MEvent.finished b m]) ∨
        (∃ t, msLoop files total cAt acc idx k steps =
            t ++ [MEvent.finished false "任务已取消"] ∧
          MEvent.cleanup files ∉ msLoop files total cAt acc idx k steps) := by
  intro steps
  induction steps with
  | nil =>
      intro acc idx k
      exact Or.inl ⟨[], true, "导出完成", rfl⟩
  | cons st rest ih =>
      intro acc idx k
      rw [msLoop]
      by_cases hc : cancelSeen cAt k = true
      · rw [if_pos hc]
        exact Or.inr ⟨[], rfl, by simp⟩
      · rw [if_neg hc]
        match hexit : st.exit with
        | none => exact Or.inl ⟨[MEvent.msg _], false, "缺少可执行文件", rfl⟩
        | some code =>
            dsimp only
            by_cases hc2 : cancelSeen cAt (k + st.reads) = true
            · rw [if_pos hc2]
              exact Or.inr ⟨[MEvent.msg _, MEvent.launch _, MEvent.terminate],
                rfl, by simp⟩
            · rw [if_neg hc2]
              by_cases hcode : code ≠ 0
              · rw [if_pos hcode]
                exact Or.inl ⟨[MEvent.msg _, MEvent.launch _], false,
                  failMsg idx code, rfl⟩
              · rw [if_neg hcode]
                rcases ih (acc + st.weight) (idx + 1) (k + st.reads + 1) with
                  ⟨t, b, m, htail⟩ | ⟨t, htail, hnotin⟩
                · refine Or.inl ⟨MEvent.msg ("执行: " ++
                      String.intercalate " " st.args) :: MEvent.launch st.args ::
                      MEvent.progress (min 1 ((acc + st.weight) / total)) :: t,
                      b, m, ?_⟩
                  rw [htail]
                  simp
                · refine Or.inr ⟨MEvent.msg ("执行: " ++
                      String.intercalate " " st.args) :: MEvent.launch st.args ::
                      MEvent.progress (min 1 ((acc + st.weight) / total)) :: t,
                      ?_, ?_⟩
                  · rw [htail]
                    simp
                  · simpa using hnotin

/-- C6 amended: every multi-step run either ends with the cleanup pass
immediately followed by the terminal event (the success, step-failure and
missing-executable paths), or is a cancellation exit whose trace contains
no cleanup at all. -/
theorem claim6_cleanup_on_noncancel_exits (steps : List MStep)
    (files : List String) (cAt : Option Nat) :
    (∃ t b m, msRun steps files cAt =
        t ++ [MEvent.cleanup files, MEvent.finished b m]) ∨
      (∃ t, msRun steps files cAt =
          t ++ [MEvent.finished false "任务已取消"] ∧
        MEvent.cleanup files ∉ msRun steps files cAt) :=
  msLoop_exit_shape files (totalWeight steps) cAt steps 0 1 0

lemma msLoop_failure (files : List String) (total : ℚ) (st : MStep)
    (post : List MStep) (code : Int) (hst : st.exit = some code)
    (hcode : code ≠ 0) :
    ∀ (pre : List MStep) (acc : ℚ) (idx k : Nat),
      (∀ s ∈ pre, s.exit = some 0) →
      launches (msLoop files total none acc idx k (pre ++ st :: post)) =
          pre.map MStep.args ++ [st.args] ∧
        finishedEvents (msLoop files total none acc idx k (pre ++ st :: post)) =
          [(false, failMsg (idx + pre.length) code)] ∧
        ∃ t, msLoop files total none acc idx k (pre ++ st :: post) =
          t ++ [MEvent.cleanup files,
            MEvent.finished false (failMsg (idx + pre.length) code)] := by
  intro pre
  induction pre with
  | nil =>
      intro acc idx k _
      rw [List.nil_append, msLoop]
      have hcz : cancelSeen none k = false := rfl
      have hcz2 : cancelSeen none (k + st.reads) = false := rfl
      rw [if_neg (by rw [hcz]; exact Bool.false_ne_true), hst]
      dsimp only
      rw [if_neg (by rw [hcz2]; exact Bool.false_ne_true), if_pos hcode]
      refine ⟨?_, ?_,
        ⟨[MEvent.msg ("执行: " ++ String.intercalate " " st.args),
          MEvent.launch st.args], rfl⟩⟩
      · simp [launches]
      · simp [finishedEvents]
  | cons p pre' ih =>
      intro acc idx k hpre
      have hp0 : p.exit = some 0 := hpre p (by simp)
      rw [List.cons_append, msLoop]
      have hcz : cancelSeen none k = false := rfl
      have hcz2 : cancelSeen none (k + p.reads) = false := rfl
      rw [if_neg (by rw [hcz]; exact Bool.false_ne_true), hp0]
      dsimp only
      rw [if_neg (by rw [hcz2]; exact Bool.false_ne_true),
        if_neg (by simp : ¬ (0 : Int) ≠ 0)]
      obtain ⟨h1, h2, t, h3⟩ := ih (acc + p.weight) (idx + 1) (k + p.reads + 1)
        (fun s hs => hpre s (List.mem_cons_of_mem _ hs))
      have hidx : idx + 1 + pre'.length = idx + (p :: pre').length := by
        simp
        omega
      rw [hidx] at h2 h3
      refine ⟨?_, ?_, ?_⟩
      · simp only [launches, List.filterMap_cons] at h1 ⊢
        rw [h1]
        simp
      · simp only [finishedEvents, List.filterMap_cons] at h2 ⊢
        rw [h2]
      · refine ⟨MEvent.msg ("执行: " ++ String.intercalate " " p.args) ::
          MEvent.launch p.args ::
          MEvent.progress (min 1 ((acc + p.weight) / total)) :: t, ?_⟩
        rw [h3]
        simp

/-- C7: if a step exits nonzero and everything before it exits 0 (no
cancellation), only the jobs up to and including the failing one are
launched, the cleanup pass runs just before the terminal event, and the
single terminal event is `finished(false, ...)` carrying the 1-based
failing step index and its exit code. -/
theorem claim7_nonzero_exit_aborts (files : List String)
    (pre post : List MStep) (st : MStep) (code : Int)
    (hpre : ∀ s ∈ pre, s.exit = some 0) (hst : st.exit = some code)
    (hcode : code ≠ 0) :
    launches (msRun (pre ++ st :: post) files none) =
        pre.map MStep.args ++ [st.args] ∧
      finishedEvents (msRun (pre ++ st :: post) files none) =
        [(false, failMsg (pre.length + 1) code)] ∧
      ∃ t, msRun (pre ++ st :: post) files none =
        t ++ [MEvent.cleanup files,
          MEvent.finished false (failMsg (pre.length + 1) code)] := by
  have h := msLoop_failure files (totalWeight (pre ++ st :: post)) st post code
    hst hcode pre 0 1 0 hpre
  rw [show 1 + pre.length = pre.length + 1 from Nat.add_comm 1 _] at h
  exact h

/-- Witness for C7: first step exits 0, second exits 3, third is abandoned. -/
theorem claim7_witness :
    launches (msRun ([MStep.mk ["a"] 1 (some 0) 1] ++
          MStep.mk ["b"] 2 (some 3) 1 :: [MStep.mk ["c"] 1 (some 0) 1])
        ["t1"] none) =
        [MStep.mk ["a"] 1 (some 0) 1].map MStep.args ++
          [(MStep.mk ["b"] 2 (some 3) 1).args] ∧
      finishedEvents (msRun ([MStep.mk ["a"] 1 (some 0) 1] ++
          MStep.mk ["b"] 2 (some 3) 1 :: [MStep.mk ["c"] 1 (some 0) 1])
        ["t1"] none) =
        [(false, failMsg ([MStep.mk ["a"] 1 (some 0) 1].length + 1) 3)] ∧
      ∃ t, msRun ([MStep.mk ["a"] 1 (some 0) 1] ++
          MStep.mk ["b"] 2 (some 3) 1 :: [MStep.mk ["c"] 1 (some 0) 1])
        ["t1"] none =
        t ++ [MEvent.cleanup ["t1"],
          MEvent.finished false
            (failMsg ([MStep.mk ["a"] 1 (some 0) 1].length + 1) 3)] :=
  claim7_nonzero_exit_aborts ["t1"] [MStep.mk ["a"] 1 (some 0) 1]
    [MStep.mk ["c"] 1 (some 0) 1] (MStep.mk ["b"] 2 (some 3) 1) 3
    (by decide) rfl (by decide)

/-- C9 counterexample: the fine-grained worker's ratios follow the
timestamps in the output lines verbatim; lines with decreasing timestamps
produce a strictly decreasing pair of emitted ratios. -/
theorem claim9_counterexample :
    progressValues (ffRun "ffmpeg" (FFmpegTask.mk "i.mp4" "o.mp4" 0 10 10)
        ["time=0:00:08.00", "time=0:00:02.00"] 0 none) = [4/5, 1/5, 1] ∧
      ¬ List.Chain' (fun a b => a ≤ b)
        (progressValues (ffRun "ffmpeg" (FFmpegTask.mk "i.mp4" "o.mp4" 0 10 10)
          ["time=0:00:08.00", "time=0:00:02.00"] 0 none)) := by
  have heval : progressValues (ffRun "ffmpeg"
      (FFmpegTask.mk "i.mp4" "o.mp4" 0 10 10)
      ["time=0:00:08.00", "time=0:00:02.00"] 0 none) = [4/5, 1/5, 1] := by
    with_unfolding_all rfl
  refine ⟨heval, ?_⟩
  rw [heval]
  intro hchain
  rw [List.chain'_cons] at hchain
  have := hchain.1
  norm_num at this

lemma parseProgress_bounds (line : String) (d : Int) (r : ℚ)
    (h : parseProgress line d = some r) : 0 ≤ r ∧ r ≤ 1 := by
  unfold parseProgress at h
  match hs : searchTime line.toList with
  | none => rw [hs] at h; exact absurd h (by simp)
  | some (hh, mm, ss) =>
      rw [hs] at h
      simp only [Option.some.injEq] at h
      rw [← h]
      constructor
      · exact le_min (by norm_num) (le_max_left 0 _)
      · exact min_le_left 1 _

lemma ffLoop_progress_bounds (dur code : Int) (o : String) (cAt : Option Nat)
    (lines : List String) :
    ∀ k : Nat, ∀ q ∈ progressValues (ffLoop dur code o cAt k lines),
      0 ≤ q ∧ q ≤ 1 := by
  induction lines with
  | nil =>
      intro k q hq
      rw [ffLoop] at hq
      by_cases hc : cancelSeen cAt k = true
      · rw [if_pos hc] at hq
        simp [progressValues] at hq
      · rw [if_neg hc] at hq
        by_cases hcode : code = 0
        · rw [if_pos hcode] at hq
          simp [progressValues] at hq
          rw [hq]
          norm_num
        · rw [if_neg hcode] at hq
          simp [progressValues] at hq
  | cons line rest ih =>
      intro k q hq
      rw [ffLoop] at hq
      by_cases hc : cancelSeen cAt k = true
      · rw [if_pos hc] at hq
        simp [progressValues] at hq
      · rw [if_neg hc] at hq
        simp only [progressValues, List.filterMap_cons, List.filterMap_append]
          at hq
        rw [List.mem_append] at hq
        rcases hq with hq | hq
        · match hp : parseProgress line.trim dur with
          | none => rw [hp] at hq; simp at hq
          | some r =>
              rw [hp] at hq
              simp at hq
              rw [hq]
              exact parseProgress_bounds line.trim dur r hp
        · exact ih (k + 1) q hq

lemma totalWeight_pos (steps : List MStep)
    (h : ∀ s ∈ steps, 0 ≤ s.weight) : 0 < totalWeight steps := by
  unfold totalWeight
  by_cases hs : (steps.map MStep.weight).sum = 0
  · rw [if_pos hs]; norm_num
  · rw [if_neg hs]
    have hnn : 0 ≤ (steps.map MStep.weight).sum := by
      refine List.sum_nonneg ?_
      intro x hx
      obtain ⟨s, hsm, rfl⟩ := List.mem_map.mp hx
      exact h s hsm
    exact lt_of_le_of_ne hnn (Ne.symm hs)

lemma msLoop_progress_inv (files : List String) (total : ℚ) (htot : 0 < total)
    (cAt : Option Nat) :
    ∀ (steps : List MStep) (acc : ℚ) (idx k : Nat), 0 ≤ acc →
      (∀ s ∈ steps, 0 ≤ s.weight) →
      (∀ q ∈ progressValues (msLoop files total cAt acc idx k steps),
          min 1 (acc / total) ≤ q ∧ 0 ≤ q ∧ q ≤ 1) ∧
        List.Chain' (fun a b => a ≤ b)
          (progressValues (msLoop files total cAt acc idx k steps)) := by
  intro steps
  induction steps with
  | nil =>
      intro acc idx k _ _
      constructor
      · intro q hq
        simp [msLoop, progressValues] at hq
      · simp [msLoop, progressValues]
  | cons st rest ih =>
      intro acc idx k hacc hw
      have hwst : 0 ≤ st.weight := hw st (by simp)
      rw [msLoop]
      by_cases hc : cancelSeen cAt k = true
      · rw [if_pos hc]
        exact ⟨fun q hq => by simp [progressValues] at hq,
          by simp [progressValues]⟩
      · rw [if_neg hc]
        match hexit : st.exit with
        | none =>
            exact ⟨fun q hq => by simp [progressValues] at hq,
              by simp [progressValues]⟩
        | some code =>
            dsimp only
            by_cases hc2 : cancelSeen cAt (k + st.reads) = true
            · rw [if_pos hc2]
              exact ⟨fun q hq => by simp [progressValues] at hq,
                by simp [progressValues]⟩
            · rw [if_neg hc2]
              by_cases hcode : code ≠ 0
              · rw [if_pos hcode]
                exact ⟨fun q hq => by simp [progressValues] at hq,
                  by simp [progressValues]⟩
              · rw [if_neg hcode]
                obtain ⟨htb, htc⟩ := ih (acc + st.weight) (idx + 1)
                  (k + st.reads + 1) (by linarith)
                  (fun s hs => hw s (List.mem_cons_of_mem _ hs))
                have hdivle : acc / total ≤ (acc + st.weight) / total :=
                  (div_le_div_iff_of_pos_right htot).mpr (by linarith)
                have hvlb : min 1 (acc / total) ≤
                    min 1 ((acc + st.weight) / total) :=
                  min_le_min (le_refl 1) hdivle
                have hv0 : (0 : ℚ) ≤ min 1 ((acc + st.weight) / total) :=
                  le_min (by norm_num) (div_nonneg (by linarith) htot.le)
                have hv1 : min 1 ((acc + st.weight) / total) ≤ 1 :=
                  min_le_left 1 _
                simp only [progressValues, List.filterMap_cons]
                constructor
                · intro q hq
                  rw [List.mem_cons] at hq
                  rcases hq with hq | hq
                  · rw [hq]
                    exact ⟨hvlb, hv0, hv1⟩
                  · obtain ⟨hlb, h0, h1⟩ := htb q hq
                    exact ⟨le_trans hvlb hlb, h0, h1⟩
                · rw [List.chain'_cons']
                  refine ⟨?_, htc⟩
                  intro y hy
                  exact (htb y (List.mem_of_mem_head? hy)).1

/-- C9 amended: every ratio either runner emits lies in `[0, 1]` (for the
coarse runner given the nonnegative weights the plan builder produces),
and the coarse runner's sequence is monotonically non-decreasing; the
fine-grained runner's sequence tracks the timestamps of its input lines
and need not be monotone for arbitrary lines. -/
theorem claim9_progress_in_range_and_coarse_monotone :
    (∀ (p : String) (t : FFmpegTask) (lines : List String) (c : Int)
        (cAt : Option Nat), ∀ q ∈ progressValues (ffRun p t lines c cAt),
        0 ≤ q ∧ q ≤ 1) ∧
      (∀ (steps : List MStep) (files : List String) (cAt : Option Nat),
        (∀ s ∈ steps, 0 ≤ s.weight) →
        (∀ q ∈ progressValues (msRun steps files cAt), 0 ≤ q ∧ q ≤ 1) ∧
          List.Chain' (fun a b => a ≤ b)
            (progressValues (msRun steps files cAt))) := by
  constructor
  · intro p t lines c cAt q hq
    rw [ffRun] at hq
    simp only [progressValues, List.filterMap_cons] at hq
    exact ffLoop_progress_bounds _ c t.output_path cAt lines 0 q hq
  · intro steps files cAt hw
    have htot := totalWeight_pos steps hw
    obtain ⟨hb, hc⟩ := msLoop_progress_inv files (totalWeight steps) htot cAt
      steps 0 1 0 (le_refl 0) hw
    exact ⟨fun q hq => ⟨(hb q hq).2.1, (hb q hq).2.2⟩, hc⟩

/-- Witness for C9 at concrete runs of both workers. -/
theorem claim9_witness :
    (0 ≤ (1/5 : ℚ) ∧ (1/5 : ℚ) ≤ 1) ∧
      List.Chain' (fun a b => a ≤ b)
        (progressValues (msRun [MStep.mk ["a"] 1 (some 0) 1] ["t"] none)) :=
  ⟨claim9_progress_in_range_and_coarse_monotone.1 "ffmpeg"
      (FFmpegTask.mk "i.mp4" "o.mp4" 0 10 10) ["time=0:00:02.00"] 0 none
      (1/5) (by
        rw [show progressValues (ffRun "ffmpeg"
            (FFmpegTask.mk "i.mp4" "o.mp4" 0 10 10) ["time=0:00:02.00"]
            0 none) = [1/5, 1] from by with_unfolding_all rfl]
        simp),
    (claim9_progress_in_range_and_coarse_monotone.2
      [MStep.mk ["a"] 1 (some 0) 1] ["t"] none (by decide)).2⟩

/-- C10: the coarse runner's divisor `sum(weights) or 1.0` is never zero
(it is 1 whenever the weight sum is 0, including the empty list), so with
the nonnegative weights the builder produces every emitted progress value
is a well-defined number in `[0, 1]`. -/
theorem claim10_total_weight_safe (steps : List MStep) (files : List String)
    (cAt : Option Nat) :
    totalWeight steps ≠ 0 ∧
      ((steps.map MStep.weight).sum = 0 → totalWeight steps = 1) ∧
      ((∀ s ∈ steps, 0 ≤ s.weight) →
        ∀ q ∈ progressValues (msRun steps files cAt), 0 ≤ q ∧ q ≤ 1) := by
  refine ⟨?_, ?_, ?_⟩
  · unfold totalWeight
    by_cases hs : (steps.map MStep.weight).sum = 0
    · rw [if_pos hs]; norm_num
    · rw [if_neg hs]; exact hs
  · intro hs
    unfold totalWeight
    rw [if_pos hs]
  · intro hw q hq
    have htot := totalWeight_pos steps hw
    obtain ⟨hb, _⟩ := msLoop_progress_inv files (totalWeight steps) htot cAt
      steps 0 1 0 (le_refl 0) hw
    exact ⟨(hb q hq).2.1, (hb q hq).2.2⟩

/-- Witness for C10 on an all-zero-weight step list. -/
theorem claim10_witness :
    totalWeight [MStep.mk ["a"] 0 (some 0) 1] ≠ 0 ∧
      totalWeight [MStep.mk ["a"] 0 (some 0) 1] = 1 ∧
      (0 ≤ (0 : ℚ) ∧ (0 : ℚ) ≤ 1) :=
  ⟨(claim10_total_weight_safe [MStep.mk ["a"] 0 (some 0) 1] ["t"] none).1,
    (claim10_total_weight_safe [MStep.mk ["a"] 0 (some 0) 1] ["t"] none).2.1
      (by with_unfolding_all rfl),
    (claim10_total_weight_safe [MStep.mk ["a"] 0 (some 0) 1] ["t"] none).2.2
      (by decide) 0 (by
        rw [show progressValues (msRun [MStep.mk ["a"] 0 (some 0) 1]
            ["t"] none) = [0] from by with_unfolding_all rfl]
        simp)⟩

end MusicCut
